import Mathlib

/-!
# Verification of `transform.py` (eagleeye)

Shallow embedding of the core of `src/transform.py`:

* `human2bytes` (the SizeDecoder, source lines 104-159),
* `parse_line` / `parse_keys` (the LineParser, source lines 174-220),
* the main read loop (SchemaUnion tracking, source lines 299-325),
* the unchanging-counter purge (StabilityFilter, source lines 336-363),
* the combined CSV row construction (`csv.DictWriter` with
  `restval=0, extrasaction='ignore'`, source lines 367-376).

Modelling conventions:

* Python strings are `List Char` (`Str` below); `chars` injects Lean string
  literals.  Python's `split(sep)` (single-character separator), `strip()`
  and the `in` substring test are modelled by `pySplit`, `pyStrip` and
  `hasInfix`.
* Python's binary floating point is modelled exactly: the numeric portion of
  a size string (digits and at most one dot) is kept as a pair `(D, f)`
  denoting the rational `D / 10 ^ f`, and `int(num * mult)` becomes the
  exact floor `D * mult / 10 ^ f` (natural division).  Every concrete value
  appearing in the claims is exactly representable in double precision, so
  the idealisation is invisible to the properties proved here.
* Python dicts are association lists with replace-on-insert, iterated in
  insertion order.  `SYMBOLS` is kept in source order; its iteration order
  is irrelevant because the only suffixes occurring in two unit-system
  lists (`B` and `byte`) occur at index 0 in both, giving the same
  multiplier whichever list is found first.
* `datetime.strptime`/`strftime` (Python library code, not repository code)
  is abstracted as an oracle parameter `strpf`; every theorem below is
  universally quantified over it.
* Exceptions become `Except`/`Option`: `SizeError.badNum` is the
  `ValueError` raised by `float(...)`, `SizeError.unrecognized` is the
  `ValueError("can't interpret %r")` (the spec's `UnrecognizedUnit`),
  `SizeError.keyErr` is the `KeyError` raised by `prefix[letter]`, and a
  `none` result of the stability filter is the `IndexError` raised when
  `while not key in records[i]: i = i + 1` runs past the end of `records`.
-/

namespace EagleEye

/-- Decidable equality of `Except` results, so that concrete runs can be
settled by `decide`. -/
instance exceptDecEq {ε α : Type} [DecidableEq ε] [DecidableEq α] :
    DecidableEq (Except ε α) := fun x y =>
  match x, y with
  | .ok a, .ok b =>
    if h : a = b then .isTrue (by rw [h]) else .isFalse (by simp [h])
  | .error a, .error b =>
    if h : a = b then .isTrue (by rw [h]) else .isFalse (by simp [h])
  | .ok _, .error _ => .isFalse (by simp)
  | .error _, .ok _ => .isFalse (by simp)

/-- Python strings, as lists of characters. -/
abbrev Str := List Char

/-- Inject a Lean string literal into the `Str` model. -/
def chars (s : String) : Str := s.data

/-- Python's whitespace set for `str.strip()`. -/
def pyIsSpace (c : Char) : Bool :=
  c = ' ' || c = '\t' || c = '\n' || c = '\x0d' || c = '\x0b' || c = '\x0c'

/-- Python `s.strip()`. -/
def pyStrip (l : Str) : Str :=
  ((l.dropWhile pyIsSpace).reverse.dropWhile pyIsSpace).reverse

/-- Python `s.split(sep)` for a single-character separator: keeps empty
pieces, yields one piece more than the number of separators. -/
def pySplit (sep : Char) : Str → List Str
  | [] => [[]]
  | c :: cs =>
    let r := pySplit sep cs
    if c = sep then [] :: r
    else (c :: r.headD []) :: r.tail

/-- Python `pat in s` (substring containment). -/
def hasInfix (pat : Str) : Str → Bool
  | [] => pat.isPrefixOf []
  | c :: cs => pat.isPrefixOf (c :: cs) || hasInfix pat cs

/-! ## SizeDecoder (`human2bytes`, source lines 104-159) -/

/-- The `SYMBOLS` table (source lines 104-112), in source order. -/
def SYMBOLS : List (Str × List Str) :=
  [(chars "customary",
    [chars "B", chars "KB", chars "MB", chars "GB", chars "TB", chars "PB",
     chars "EB", chars "ZB", chars "YB"]),
   (chars "customary_short",
    [chars "B", chars "K", chars "M", chars "G", chars "T", chars "P",
     chars "E", chars "Z", chars "Y"]),
   (chars "customary_ext",
    [chars "byte", chars "kilo", chars "mega", chars "giga", chars "tera",
     chars "peta", chars "exa", chars "zetta", chars "iotta"]),
   (chars "iec",
    [chars "Bi", chars "Ki", chars "Mi", chars "Gi", chars "Ti", chars "Pi",
     chars "Ei", chars "Zi", chars "Yi"]),
   (chars "iec_ext",
    [chars "byte", chars "kibi", chars "mebi", chars "gibi", chars "tebi",
     chars "pebi", chars "exbi", chars "zebi", chars "yobi"])]

/-- Python `str.isdigit()` on ASCII input: nonempty and all characters are
decimal digits. -/
def isDigits (l : Str) : Bool :=
  !l.isEmpty && l.all Char.isDigit

/-- Value of a digit string read in base 10 (`long(s)` / the digits of a
float literal). -/
def digitsVal (l : Str) : Nat :=
  l.foldl (fun a c => 10 * a + (c.toNat - 48)) 0

/-- The scan loop of `human2bytes` (source lines 131-134): split off the
leading run of digits and dots, returning `(num, rest)`. -/
def numScan : Str → Str × Str
  | [] => ([], [])
  | c :: cs =>
    if c.isDigit || c = '.' then
      let p := numScan cs
      (c :: p.1, p.2)
    else ([], c :: cs)

/-- Python `float(num)` where `num` consists of digits and dots only,
modelled exactly: `some (D, f)` denotes the rational `D / 10 ^ f`.
`float` raises `ValueError` (here `none`) on an empty string, a lone `"."`
or more than one dot. -/
def parseNum (l : Str) : Option (Nat × Nat) :=
  if l.count '.' = 0 then
    if l.isEmpty then none else some (digitsVal l, 0)
  else if l.count '.' = 1 then
    let ip := l.takeWhile (fun c => c ≠ '.')
    let fp := (l.dropWhile (fun c => c ≠ '.')).tail
    if ip.isEmpty && fp.isEmpty then none
    else some (digitsVal ip * 10 ^ fp.length + digitsVal fp, fp.length)
  else none

/-- The failure modes of `human2bytes`. -/
inductive SizeError where
  /-- `float(num)` raised `ValueError` (empty or malformed numeric part);
  carries the numeric part handed to `float`. -/
  | badNum (numPart : Str)
  /-- `ValueError("can't interpret %r" % init)` — the spec's
  `UnrecognizedUnit`; carries the (stripped) original string. -/
  | unrecognized (original : Str)
  /-- `prefix[letter]` raised `KeyError`; carries the missing key. -/
  | keyErr (letter : Str)
  deriving DecidableEq, Repr

/-- The `prefix` dict of source lines 155-157 (`{sset[0]: 1}`, then
`prefix[s] = 1 << (i+1)*10` for the remaining suffixes), looked up at
`letter`.  Later dict assignments override earlier ones, hence the *last*
matching index wins (no list in `SYMBOLS` has duplicate entries, so this
coincides with the first). -/
def prefixLookup (sset : List Str) (letter : Str) : Option Nat :=
  ((sset.enum.filter (fun p => p.2 = letter)).getLast?).map
    (fun p => 2 ^ (10 * p.1))

/-- The `for name, sset in SYMBOLS.items(): if letter in sset: break`
search (source lines 139-141): the first unit-system list containing
`letter`. -/
def findSset (letter : Str) : Option (List Str) :=
  (SYMBOLS.find? (fun p => p.2.contains letter)).map (fun p => p.2)

/-- `human2bytes` (source lines 114-159).  `Except.ok` is the returned
integer (always the cast of a natural number), `Except.error` the raised
exception. -/
def human2bytes (s0 : Str) : Except SizeError Int :=
  let s := pyStrip s0
  if isDigits s then .ok ((digitsVal s : Nat) : Int)
  else
    let init := s
    let p := numScan s
    match parseNum p.1 with
    | none => .error (.badNum p.1)
    | some nf =>
      let letter := pyStrip p.2
      match findSset letter with
      | some sset =>
        match prefixLookup sset letter with
        | some mult => .ok ((nf.1 * mult / 10 ^ nf.2 : Nat) : Int)
        | none => .error (.keyErr letter)
      | none =>
        if letter = chars "k" then
          -- source lines 143-145: `sset = SYMBOLS['customary']`;
          -- `letter = letter.upper()`
          match prefixLookup (SYMBOLS.headD ([], [])).2 (chars "K") with
          | some mult => .ok ((nf.1 * mult / 10 ^ nf.2 : Nat) : Int)
          | none => .error (.keyErr (chars "K"))
        else .error (.unrecognized init)

/-! ## Records and the LineParser (`parse_line`, source lines 174-220) -/

/-- A value stored in a record: the timestamp string under `Date`, or a
decoded integer. -/
inductive Value where
  | str (s : Str)
  | int (n : Int)
  deriving DecidableEq, Repr

/-- A Python dict, as an association list iterated in insertion order. -/
abbrev Record := List (Str × Value)

/-- Python dict assignment `d[k] = v`: replace in place if the key is
present, append otherwise. -/
def insertRec : Record → Str → Value → Record
  | [], k, v => [(k, v)]
  | p :: ps, k, v => if p.1 = k then (k, v) :: ps else p :: insertRec ps k v

/-- Python dict lookup `d[k]` (as an option). -/
def lookupRec : Record → Str → Option Value
  | [], _ => none
  | p :: ps, k => if p.1 = k then some p.2 else lookupRec ps k

/-- Python `k in d`. -/
def containsKey (r : Record) (k : Str) : Bool :=
  (lookupRec r k).isSome

/-- `parse_keys` (source lines 216-220): the keys of a record, in
insertion order. -/
def parse_keys (r : Record) : List Str :=
  r.map (fun p => p.1)

/-- The failure modes of `parse_line` (all re-raised to the caller and
fatal to the run). -/
inductive ParseErr where
  /-- `IndexError`/`ValueError` inside the date fixup (source lines
  186-191). -/
  | dateErr
  /-- `IndexError` on `x[1]`: a field with no `:` separator. -/
  | noValue (element : Str)
  /-- `human2bytes` raised on the field's value. -/
  | elemErr (element : Str) (e : SizeError)
  deriving DecidableEq, Repr

/-- The date fixup (source lines 184-193): `darr = datestring.split(" ")`;
`tz = darr[4]` (an `IndexError` if absent); re-parse
`" ".join(darr[0:4] + darr[5:6])` with `strptime`/`strftime`, abstracted
as the oracle `strpf` (`none` models the `ValueError` of `strptime`). -/
def fixDate (strpf : Str → Option Str) (datestring : Str) :
    Except ParseErr Str :=
  let darr := pySplit ' ' datestring
  if 5 ≤ darr.length then
    match strpf (((darr.take 4 ++ (darr.drop 5).take 1).intersperse
        [' ']).flatten) with
    | some nds => .ok nds
    | none => .error .dateErr
  else .error .dateErr

/-- The field loop of `parse_line` (source lines 197-202): for each
element other than a literal `"\n"`, split on `:`, skip blacklisted
names, decode the value and store it. -/
def parseElems (bl : List Str) : Record → List Str → Except ParseErr Record
  | acc, [] => .ok acc
  | acc, element :: rest =>
    if element = chars "\n" then parseElems bl acc rest
    else
      let x := pySplit ':' element
      let name := x.headD []
      if bl.contains name then parseElems bl acc rest
      else
        match x.get? 1 with
        | none => .error (.noValue element)
        | some v =>
          match human2bytes v with
          | .ok n => parseElems bl (insertRec acc name (.int n)) rest
          | .error e => .error (.elemErr element e)

/-- `parse_line` (source lines 174-214): split the line on `|`, pop the
date field (fixing it up when `fixupDate` is set), then decode the
remaining `name:value` fields. -/
def parse_line (bl : List Str) (strpf : Str → Option Str)
    (fixupDate : Bool) (inline : Str) : Except ParseErr Record :=
  let fields := pySplit '|' inline
  let datestring := fields.headD []
  match (if fixupDate then fixDate strpf datestring else .ok datestring :
      Except ParseErr Str) with
  | .error e => .error e
  | .ok ds => parseElems bl [(chars "Date", .str ds)] fields.tail

/-! ## The main read loop (source lines 299-325) -/

/-- The running key list and record list of `main`. -/
structure LoopState where
  keys : List Str
  records : List Record
  deriving DecidableEq, Repr

/-- The SchemaUnion step (source lines 316-319):
`compare_keys = list(set(parse_keys(record)) - set(keys))`; when nonempty,
`keys` is *replaced* by `parse_keys(record)`. -/
def stepKeys (keys : List Str) (record : Record) : List Str :=
  if ((parse_keys record).filter (fun k => !keys.contains k)).isEmpty then
    keys
  else parse_keys record

/-- One iteration of the read loop (source lines 312-322): parse the line
*first*, then skip it if it contains `"turned over"`, else update the keys
and append the record. -/
def processLine (bl : List Str) (strpf : Str → Option Str)
    (fixupDate : Bool) (st : LoopState) (line : Str) :
    Except ParseErr LoopState :=
  match parse_line bl strpf fixupDate line with
  | .error e => .error e
  | .ok record =>
    if hasInfix (chars "turned over") line then .ok st
    else .ok ⟨stepKeys st.keys record, st.records ++ [record]⟩

/-- The `for line in iter(f)` loop, folding a step over the remaining
lines; a raised exception aborts the loop. -/
def runLoop (step : LoopState → Str → Except ParseErr LoopState) :
    LoopState → List Str → Except ParseErr LoopState
  | st, [] => .ok st
  | st, line :: rest =>
    match step st line with
    | .error e => .error e
    | .ok st2 => runLoop step st2 rest

/-- The read loop given the already-chosen first line and the remaining
lines: parse the first line (its keys seed `keys`; the record itself is
*not* appended — source line 309 is commented out), then run the loop
over the rest. -/
def runMainCore (bl : List Str) (strpf : Str → Option Str)
    (fixupDate : Bool) (first : Str) (rest : List Str) :
    Except ParseErr LoopState :=
  match parse_line bl strpf fixupDate first with
  | .error e => .error e
  | .ok fr => runLoop (processLine bl strpf fixupDate) ⟨parse_keys fr, []⟩ rest

/-- The whole read phase of `main` (source lines 299-325): the first line
is checked for `"turned over"` *before* parsing (and skipped once, source
lines 302-303); every later line is handed to `parse_line` before its
rotation check. -/
def runMain (bl : List Str) (strpf : Str → Option Str) (fixupDate : Bool)
    (lines : List Str) : Except ParseErr LoopState :=
  if hasInfix (chars "turned over") (lines.headD []) then
    runMainCore bl strpf fixupDate (lines.tail.headD []) lines.tail.tail
  else
    runMainCore bl strpf fixupDate (lines.headD []) lines.tail

/-- The lines actually handed to the loop body: the first line (or, when
it is a rotation line, the two first lines) is consumed before the loop. -/
def effRest (lines : List Str) : List Str :=
  if hasInfix (chars "turned over") (lines.headD []) then lines.tail.tail
  else lines.tail

/-- A loop iteration with no rotation check at all, used by the
spec-following variant below. -/
def processLineNoCheck (bl : List Str) (strpf : Str → Option Str)
    (fixupDate : Bool) (st : LoopState) (line : Str) :
    Except ParseErr LoopState :=
  match parse_line bl strpf fixupDate line with
  | .error e => .error e
  | .ok record => .ok ⟨stepKeys st.keys record, st.records ++ [record]⟩

/-- Spec-following variant of the read phase, for comparison with
`runMain` (claim C3): every line containing the rotation marker is
recognized and dropped *before* parsing is attempted, and the parser only
ever sees the remaining lines. -/
def runMainSkipBeforeParse (bl : List Str) (strpf : Str → Option Str)
    (fixupDate : Bool) (lines : List Str) : Except ParseErr LoopState :=
  let ls := lines.filter (fun l => !hasInfix (chars "turned over") l)
  match parse_line bl strpf fixupDate (ls.headD []) with
  | .error e => .error e
  | .ok fr =>
    runLoop (processLineNoCheck bl strpf fixupDate) ⟨parse_keys fr, []⟩ ls.tail

/-! ## StabilityFilter (source lines 336-363) -/

/-- The second while loop of the purge (source lines 350-360): scan the
remaining records, skipping those lacking `key` (`continue`), and report
whether some present value differs from `first_record_value`. -/
def varFrom (key : Str) (v0 : Value) : List Record → Bool
  | [] => false
  | r :: rs =>
    match lookupRec r key with
    | some v => v ≠ v0 || varFrom key v0 rs
    | none => varFrom key v0 rs

/-- The variability scan for one key (source lines 341-360): the first
while loop advances to the first record containing `key` (`none` models
the `IndexError` raised when no record does), takes
`first_record_value = records[i][key]` there, and the second loop —
started at that same record, whose self-comparison is vacuous — looks for
a differing present value. -/
def varValue (key : Str) : List Record → Option Bool
  | [] => none
  | r :: rs =>
    match lookupRec r key with
    | some v0 => some (varFrom key v0 (r :: rs))
    | none => varValue key rs

/-- The purge loop (source lines 339-363): for each key other than
`Date`, keep it iff its value varies; a key contained in no record
aborts the whole purge (the `IndexError`, modelled by `none`).  The
retained keys appear in their order in `keys` (`newkeys.append`). -/
def stabilityFilter (records : List Record) : List Str → Option (List Str)
  | [] => some []
  | key :: ks =>
    if key = chars "Date" then stabilityFilter records ks
    else
      match varValue key records with
      | none => none
      | some true => (stabilityFilter records ks).map (fun l => key :: l)
      | some false => stabilityFilter records ks

/-! ## Combined CSV (source lines 367-376) -/

/-- One `csv.DictWriter` data row (`restval=0`, `extrasaction='ignore'`):
for each field name, the record's value, defaulting to `0`. -/
def csvRow (fieldnames : List Str) (r : Record) : List Value :=
  fieldnames.map (fun k => (lookupRec r k).getD (Value.int 0))

/-- The combined CSV (source lines 367-376): after the optional purge
(`PurgeDups`, source lines 336-363), `keys.insert(0, 'Date')` forms the
header, and `dictwriter.writerows(records)` emits one row per collected
record, in order.  `none` models a fatal run (a parse error or the purge's
`IndexError`). -/
def combinedCSV (bl : List Str) (strpf : Str → Option Str)
    (fixupDate : Bool) (purgeDups : Bool) (lines : List Str) :
    Option (List Str × List (List Value)) :=
  match runMain bl strpf fixupDate lines with
  | .error _ => none
  | .ok st =>
    match (if purgeDups then stabilityFilter st.records st.keys
        else some st.keys : Option (List Str)) with
    | none => none
    | some ks =>
      let fieldnames := chars "Date" :: ks
      some (fieldnames, st.records.map (csvRow fieldnames))

/-! ## Lemmas about the SizeDecoder -/

theorem numScan_of_all_digits (l : Str) (h : l.all Char.isDigit = true) :
    numScan l = (l, []) := by
  induction l with
  | nil => rfl
  | cons c cs ih =>
    simp only [List.all_cons, Bool.and_eq_true] at h
    simp [numScan, h.1, ih h.2]

theorem isDigits_numScan_ne_nil (l : Str) (h : isDigits l = true) :
    (numScan l).1 ≠ [] := by
  simp only [isDigits, Bool.and_eq_true, Bool.not_eq_true',
    List.isEmpty_eq_false] at h
  rw [numScan_of_all_digits l h.2]
  exact h.1

theorem human2bytes_empty_num (s : Str) (h : (numScan (pyStrip s)).1 = []) :
    human2bytes s = .error (.badNum []) := by
  have hdig : isDigits (pyStrip s) = false := by
    cases hd : isDigits (pyStrip s) with
    | false => rfl
    | true => exact absurd h (isDigits_numScan_ne_nil _ hd)
  unfold human2bytes
  simp only [hdig, Bool.false_eq_true, if_false, h]
  rfl

theorem human2bytes_unrecognized (s : Str) (nf : Nat × Nat)
    (hdig : isDigits (pyStrip s) = false)
    (hnum : parseNum (numScan (pyStrip s)).1 = some nf)
    (hletter : ∀ q ∈ SYMBOLS,
      q.2.contains (pyStrip (numScan (pyStrip s)).2) = false)
    (hk : pyStrip (numScan (pyStrip s)).2 ≠ chars "k") :
    human2bytes s = .error (.unrecognized (pyStrip s)) := by
  have hfind : findSset (pyStrip (numScan (pyStrip s)).2) = none := by
    unfold findSset
    rw [List.find?_eq_none.mpr (fun q hq => by rw [hletter q hq]; simp)]
    rfl
  unfold human2bytes
  simp only [hdig, Bool.false_eq_true, if_false, hnum, hfind, hk, if_neg hk]

/-! ## Claim C4 -/

/-- **C4** (code bug): the spec says a lone lowercase `k` is treated as the
short-form kilo suffix, so `"2k"` should decode to `2048`.  The code's
special case instead selects `SYMBOLS['customary']`
(`B, KB, MB, …`), which does not contain the upper-cased `"K"`, so
`prefix['K']` raises `KeyError` and the whole run dies.  This theorem
evaluates the embedded code at the failing input. -/
theorem C4_lone_k_raises_keyerror :
    human2bytes (chars "2k") = .error (.keyErr (chars "K")) := by decide

/-! ## Claim C7 -/

/-- **C7** (confirmed): for every unit-system list in `SYMBOLS` and every
suffix at zero-based index `i` in it, `human2bytes ("1" ++ suffix)` equals
`2 ^ (10 * i)` (binary scale, base multiplier 1), and the concrete values
`"0" ↦ 0`, `"1024B" ↦ 1024`, `"1K" ↦ 1024`, `"1M" ↦ 1048576`,
`"1.5K" ↦ 1536` (floor applied) all hold. -/
theorem C7_binary_scale :
    (∀ p ∈ SYMBOLS, ∀ i, ∀ h : i < p.2.length,
      human2bytes (chars "1" ++ p.2.get ⟨i, h⟩) = .ok ((2 : Int) ^ (10 * i)))
    ∧ human2bytes (chars "0") = .ok 0
    ∧ human2bytes (chars "1024B") = .ok 1024
    ∧ human2bytes (chars "1K") = .ok 1024
    ∧ human2bytes (chars "1M") = .ok 1048576
    ∧ human2bytes (chars "1.5K") = .ok 1536 := by
  refine ⟨by decide, by decide, by decide, by decide, by decide, by decide⟩

/-- Witness for C7, instantiated at the `iec` list and index 2
(`"1Mi" ↦ 2 ^ 20`). -/
theorem C7_binary_scale_witness :
    human2bytes (chars "1" ++
      [chars "Bi", chars "Ki", chars "Mi", chars "Gi", chars "Ti", chars "Pi",
       chars "Ei", chars "Zi", chars "Yi"].get ⟨2, by decide⟩) =
      .ok ((2 : Int) ^ (10 * 2)) :=
  C7_binary_scale.1
    (chars "iec",
     [chars "Bi", chars "Ki", chars "Mi", chars "Gi", chars "Ti", chars "Pi",
      chars "Ei", chars "Zi", chars "Yi"])
    (by decide) 2 (by decide)

/-! ## Claim C9 -/

/-- **C9** (counterexample): `"zzz"` is not all digits, its suffix `"zzz"`
is in no unit-system list and is not a lone `k`, yet decoding does *not*
fail with the `UnrecognizedUnit` error carrying the original string: the
numeric portion is empty, so `float('')` raises first, and that error
carries only the empty numeric part. -/
theorem C9_counterexample :
    human2bytes (chars "zzz") ≠ .error (.unrecognized (chars "zzz")) ∧
    human2bytes (chars "zzz") = .error (.badNum []) := by decide

/-- **C9** (amended): if the stripped input is not all digits, its numeric
portion parses as a float, and the stripped suffix is in no unit-system
list and is not the lone lowercase `k`, then decoding fails with the
`UnrecognizedUnit` error carrying the (stripped) original string; and an
input whose numeric portion is empty always fails (with the float
conversion error, which does not carry the original string) rather than
returning 0. -/
theorem C9_failure_modes :
    (∀ s : Str, ∀ nf : Nat × Nat, isDigits (pyStrip s) = false →
      parseNum (numScan (pyStrip s)).1 = some nf →
      (∀ q ∈ SYMBOLS,
        q.2.contains (pyStrip (numScan (pyStrip s)).2) = false) →
      pyStrip (numScan (pyStrip s)).2 ≠ chars "k" →
      human2bytes s = .error (.unrecognized (pyStrip s))) ∧
    (∀ s : Str, (numScan (pyStrip s)).1 = [] →
      ∃ e, human2bytes s = .error e) :=
  ⟨fun s nf h1 h2 h3 h4 => human2bytes_unrecognized s nf h1 h2 h3 h4,
   fun s h => ⟨.badNum [], human2bytes_empty_num s h⟩⟩

/-- Witness for C9, instantiated at `"5q"`: the suffix `q` is unknown, so
the result is the `UnrecognizedUnit` error carrying `"5q"`. -/
theorem C9_failure_modes_witness :
    human2bytes (chars "5q") = .error (.unrecognized (pyStrip (chars "5q"))) :=
  C9_failure_modes.1 (chars "5q") (5, 0) (by decide) (by decide) (by decide)
    (by decide)

/-! ## Lemmas about records and the LineParser -/

theorem lookupRec_insertRec_ne (r : Record) (k k' : Str) (v : Value)
    (h : k' ≠ k) : lookupRec (insertRec r k v) k' = lookupRec r k' := by
  have hk : ¬(k = k') := fun hh => h hh.symm
  induction r with
  | nil => simp [insertRec, lookupRec, hk]
  | cons p ps ih =>
    by_cases hp : p.1 = k
    · simp only [insertRec, if_pos hp, lookupRec]
      rw [if_neg hk, if_neg (by rw [hp]; exact hk)]
    · simp only [insertRec, if_neg hp, lookupRec]
      by_cases hk2 : p.1 = k'
      · simp [hk2]
      · simp [hk2, ih]

theorem parseElems_blacklist_not_mem (bl : List Str) (n : Str)
    (hn : bl.contains n = true) :
    ∀ elems acc rec, lookupRec acc n = none →
      parseElems bl acc elems = .ok rec → lookupRec rec n = none := by
  intro elems
  induction elems with
  | nil =>
    intro acc rec h hp
    simp only [parseElems] at hp
    cases hp
    exact h
  | cons e rest ih =>
    intro acc rec h hp
    simp only [parseElems] at hp
    by_cases he : e = chars "\n"
    · rw [if_pos he] at hp
      exact ih acc rec h hp
    · rw [if_neg he] at hp
      by_cases hb : bl.contains ((pySplit ':' e).headD []) = true
      · rw [if_pos hb] at hp
        exact ih acc rec h hp
      · rw [if_neg hb] at hp
        cases hx : (pySplit ':' e).get? 1 with
        | none =>
          simp only [hx] at hp
          exact Except.noConfusion hp
        | some v =>
          simp only [hx] at hp
          cases hv : human2bytes v with
          | error e1 =>
            simp only [hv] at hp
            exact Except.noConfusion hp
          | ok nv =>
            simp only [hv] at hp
            have hne : n ≠ (pySplit ':' e).headD [] := fun hEq => hb (hEq ▸ hn)
            refine ih _ _ ?_ hp
            rw [lookupRec_insertRec_ne _ _ _ _ hne]
            exact h

theorem parseElems_filter_blacklist (bl : List Str) :
    ∀ elems acc, parseElems bl acc elems =
      parseElems bl acc
        (elems.filter (fun e => !bl.contains ((pySplit ':' e).headD []))) := by
  intro elems
  induction elems with
  | nil => intro acc; rfl
  | cons e rest ih =>
    intro acc
    by_cases hb : bl.contains ((pySplit ':' e).headD []) = true
    · rw [List.filter_cons_of_neg (by rw [hb]; simp)]
      by_cases he : e = chars "\n"
      · simp only [parseElems, if_pos he]
        exact ih acc
      · simp only [parseElems, if_neg he, if_pos hb]
        exact ih acc
    · rw [List.filter_cons_of_pos
        (by simp only [Bool.not_eq_true] at hb; rw [hb]; rfl)]
      by_cases he : e = chars "\n"
      · simp only [parseElems, if_pos he]
        exact ih acc
      · simp only [parseElems, if_neg he, if_neg hb]
        cases hx : (pySplit ':' e).get? 1 with
        | none => simp only [hx]
        | some v =>
          simp only [hx]
          cases hv : human2bytes v with
          | error e1 => simp only [hv]
          | ok nv =>
            simp only [hv]
            exact ih _

theorem human2bytes_ok_cast (s : Str) (n : Int) (h : human2bytes s = .ok n) :
    ∃ m : Nat, n = (m : Int) := by
  simp only [human2bytes] at h
  repeat' split at h
  all_goals first
    | exact Except.noConfusion h
    | (injection h with h2; exact ⟨_, h2.symm⟩)

theorem lookupRec_insertRec_self (r : Record) (k : Str) (v : Value) :
    lookupRec (insertRec r k v) k = some v := by
  induction r with
  | nil => simp [insertRec, lookupRec]
  | cons p ps ih =>
    by_cases hp : p.1 = k
    · simp [insertRec, hp, lookupRec]
    · simp [insertRec, hp, lookupRec, ih]

theorem mem_insertRec (r : Record) (k : Str) (v : Value) (q : Str × Value)
    (h : q ∈ insertRec r k v) : q ∈ r ∨ q = (k, v) := by
  induction r with
  | nil => simp [insertRec] at h; exact Or.inr h
  | cons p ps ih =>
    by_cases hp : p.1 = k
    · simp only [insertRec, if_pos hp] at h
      rcases List.mem_cons.mp h with h1 | h1
      · exact Or.inr h1
      · exact Or.inl (List.mem_cons_of_mem _ h1)
    · simp only [insertRec, if_neg hp] at h
      rcases List.mem_cons.mp h with h1 | h1
      · exact Or.inl (h1 ▸ List.mem_cons_self _ _)
      · rcases ih h1 with h2 | h2
        · exact Or.inl (List.mem_cons_of_mem _ h2)
        · exact Or.inr h2

theorem mem_keys_insertRec (r : Record) (k a : Str) (v : Value)
    (h : a ∈ parse_keys (insertRec r k v)) : a ∈ parse_keys r ∨ a = k := by
  unfold parse_keys at h
  rcases List.mem_map.mp h with ⟨q, hq, hqa⟩
  rcases mem_insertRec r k v q hq with h1 | h1
  · exact Or.inl (hqa ▸ List.mem_map_of_mem _ h1)
  · subst h1; exact Or.inr hqa.symm

theorem nodup_keys_insertRec (r : Record) (k : Str) (v : Value)
    (h : (parse_keys r).Nodup) : (parse_keys (insertRec r k v)).Nodup := by
  induction r with
  | nil => simp [insertRec, parse_keys]
  | cons p ps ih =>
    by_cases hp : p.1 = k
    · simp only [insertRec, if_pos hp]
      simp only [parse_keys, List.map_cons, List.nodup_cons] at h ⊢
      exact ⟨hp ▸ h.1, h.2⟩
    · simp only [insertRec, if_neg hp]
      simp only [parse_keys, List.map_cons, List.nodup_cons] at h ⊢
      refine ⟨fun hmem => ?_, ih h.2⟩
      rcases mem_keys_insertRec ps k p.1 v hmem with h1 | h1
      · exact h.1 h1
      · exact hp h1

/-! ## Claim C8 -/

/-- **C8** (confirmed): a blacklisted counter name never appears in a
successfully produced record, and the parse of a field list is unchanged
when all blacklisted-name fields are removed — so a blacklisted field's
value is never handed to the size decoder, and an undecodable value under
a blacklisted name cannot fail the line. -/
theorem C8_blacklist_before_decode :
    (∀ (bl : List Str) (strpf : Str → Option Str) (fixupDate : Bool)
        (inline n : Str) (rec : Record), bl.contains n = true →
      n ≠ chars "Date" →
      parse_line bl strpf fixupDate inline = .ok rec →
      lookupRec rec n = none) ∧
    (∀ (bl : List Str) (elems : List Str) (acc : Record),
      parseElems bl acc elems = parseElems bl acc
        (elems.filter (fun e => !bl.contains ((pySplit ':' e).headD [])))) := by
  constructor
  · intro bl strpf fu inline n rec hn hnd hp
    unfold parse_line at hp
    cases hd : (if fu then fixDate strpf ((pySplit '|' inline).headD [])
        else .ok ((pySplit '|' inline).headD []) : Except ParseErr Str) with
    | error e =>
      simp only [hd] at hp
      exact Except.noConfusion hp
    | ok ds =>
      simp only [hd] at hp
      refine parseElems_blacklist_not_mem bl n hn _ _ rec ?_ hp
      have hdn : ¬(chars "Date" = n) := fun h => hnd h.symm
      simp [lookupRec, hdn]
  · exact fun bl elems acc => parseElems_filter_blacklist bl elems acc

/-- Witness for C8: with blacklist `["x"]`, the line `"t|x:zzz|a:1\n"` —
whose blacklisted field `x` carries the undecodable value `zzz` — parses
successfully and contains no `x` entry. -/
theorem C8_blacklist_before_decode_witness :
    lookupRec [(chars "Date", Value.str (chars "t")),
      (chars "a", Value.int 1)] (chars "x") = none :=
  C8_blacklist_before_decode.1 [chars "x"] (fun _ => none) false
    (chars "t|x:zzz|a:1\n") (chars "x")
    [(chars "Date", Value.str (chars "t")), (chars "a", Value.int 1)]
    (by decide) (by decide) (by decide)

/-- True when some field of the line names `Date` outside the blacklist
(such a field overwrites the timestamp entry). -/
def hasDateField (bl : List Str) (elems : List Str) : Bool :=
  elems.any (fun e => !bl.contains ((pySplit ':' e).headD []) &&
    ((pySplit ':' e).headD [] = chars "Date"))

theorem parseElems_nodup (bl : List Str) :
    ∀ elems acc rec, parseElems bl acc elems = .ok rec →
      (parse_keys acc).Nodup → (parse_keys rec).Nodup := by
  intro elems
  induction elems with
  | nil =>
    intro acc rec hp h
    simp only [parseElems] at hp
    cases hp; exact h
  | cons e rest ih =>
    intro acc rec hp h
    simp only [parseElems] at hp
    by_cases he : e = chars "\n"
    · rw [if_pos he] at hp; exact ih acc rec hp h
    · rw [if_neg he] at hp
      by_cases hb : bl.contains ((pySplit ':' e).headD []) = true
      · rw [if_pos hb] at hp; exact ih acc rec hp h
      · rw [if_neg hb] at hp
        cases hx : (pySplit ':' e).get? 1 with
        | none => simp only [hx] at hp; exact Except.noConfusion hp
        | some v =>
          simp only [hx] at hp
          cases hv : human2bytes v with
          | error e1 => simp only [hv] at hp; exact Except.noConfusion hp
          | ok nv =>
            simp only [hv] at hp
            exact ih _ rec hp (nodup_keys_insertRec _ _ _ h)

theorem parseElems_entries (bl : List Str) :
    ∀ elems acc rec, parseElems bl acc elems = .ok rec →
      ∀ q ∈ rec, q ∈ acc ∨ ∃ m : Nat, q.2 = Value.int (m : Int) := by
  intro elems
  induction elems with
  | nil =>
    intro acc rec hp q hq
    simp only [parseElems] at hp
    cases hp; exact Or.inl hq
  | cons e rest ih =>
    intro acc rec hp q hq
    simp only [parseElems] at hp
    by_cases he : e = chars "\n"
    · rw [if_pos he] at hp; exact ih acc rec hp q hq
    · rw [if_neg he] at hp
      by_cases hb : bl.contains ((pySplit ':' e).headD []) = true
      · rw [if_pos hb] at hp; exact ih acc rec hp q hq
      · rw [if_neg hb] at hp
        cases hx : (pySplit ':' e).get? 1 with
        | none => simp only [hx] at hp; exact Except.noConfusion hp
        | some v =>
          simp only [hx] at hp
          cases hv : human2bytes v with
          | error e1 => simp only [hv] at hp; exact Except.noConfusion hp
          | ok nv =>
            simp only [hv] at hp
            rcases ih _ rec hp q hq with h1 | h1
            · rcases mem_insertRec _ _ _ _ h1 with h2 | h2
              · exact Or.inl h2
              · rcases human2bytes_ok_cast v nv hv with ⟨m, hm⟩
                exact Or.inr ⟨m, by rw [h2]; simp [hm]⟩
            · exact Or.inr h1

theorem parseElems_date_isSome (bl : List Str) :
    ∀ elems acc rec, parseElems bl acc elems = .ok rec →
      (lookupRec acc (chars "Date")).isSome = true →
      (lookupRec rec (chars "Date")).isSome = true := by
  intro elems
  induction elems with
  | nil =>
    intro acc rec hp h
    simp only [parseElems] at hp
    cases hp; exact h
  | cons e rest ih =>
    intro acc rec hp h
    simp only [parseElems] at hp
    by_cases he : e = chars "\n"
    · rw [if_pos he] at hp; exact ih acc rec hp h
    · rw [if_neg he] at hp
      by_cases hb : bl.contains ((pySplit ':' e).headD []) = true
      · rw [if_pos hb] at hp; exact ih acc rec hp h
      · rw [if_neg hb] at hp
        cases hx : (pySplit ':' e).get? 1 with
        | none => simp only [hx] at hp; exact Except.noConfusion hp
        | some v =>
          simp only [hx] at hp
          cases hv : human2bytes v with
          | error e1 => simp only [hv] at hp; exact Except.noConfusion hp
          | ok nv =>
            simp only [hv] at hp
            refine ih _ rec hp ?_
            by_cases hd : chars "Date" = (pySplit ':' e).headD []
            · rw [← hd, lookupRec_insertRec_self]; rfl
            · rw [lookupRec_insertRec_ne _ _ _ _ hd]; exact h

theorem parseElems_date_preserved (bl : List Str) :
    ∀ elems acc rec, hasDateField bl elems = false →
      parseElems bl acc elems = .ok rec →
      lookupRec rec (chars "Date") = lookupRec acc (chars "Date") := by
  intro elems
  induction elems with
  | nil =>
    intro acc rec _ hp
    simp only [parseElems] at hp
    cases hp; rfl
  | cons e rest ih =>
    intro acc rec hdf hp
    simp only [hasDateField, List.any_cons, Bool.or_eq_false_iff] at hdf
    have hdf2 : hasDateField bl rest = false := hdf.2
    simp only [parseElems] at hp
    by_cases he : e = chars "\n"
    · rw [if_pos he] at hp; exact ih acc rec hdf2 hp
    · rw [if_neg he] at hp
      by_cases hb : bl.contains ((pySplit ':' e).headD []) = true
      · rw [if_pos hb] at hp; exact ih acc rec hdf2 hp
      · rw [if_neg hb] at hp
        cases hx : (pySplit ':' e).get? 1 with
        | none => simp only [hx] at hp; exact Except.noConfusion hp
        | some v =>
          simp only [hx] at hp
          cases hv : human2bytes v with
          | error e1 => simp only [hv] at hp; exact Except.noConfusion hp
          | ok nv =>
            simp only [hv] at hp
            have hnd : chars "Date" ≠ (pySplit ':' e).headD [] := by
              intro hEq
              have h1 := hdf.1
              simp only [Bool.and_eq_false_iff] at h1
              rcases h1 with h1 | h1
              · simp only [Bool.not_eq_false'] at h1
                exact hb (by rw [h1])
              · exact absurd hEq.symm (by simpa using h1)
            rw [ih _ rec hdf2 hp, lookupRec_insertRec_ne _ _ _ _ hnd]

/-! ## Claim C10 -/

/-- **C10** (counterexample): a line containing a field literally named
`Date` overwrites the timestamp entry: parsing `"t|Date:5"` yields a
record whose single `Date` entry holds the decoded integer `5`, not the
timestamp string `"t"`. -/
theorem C10_counterexample :
    parse_line [] (fun _ => none) false (chars "t|Date:5") =
      .ok [(chars "Date", Value.int 5)] ∧
    Value.int 5 ≠ Value.str (chars "t") := by decide

/-- **C10** (amended): every record produced by `parse_line` has pairwise
distinct keys with `Date` among them (hence exactly one `Date` entry),
every non-`Date` entry holds a non-negative integer, and — provided no
non-blacklisted field of the line is itself named `Date` — the `Date`
entry holds the (possibly fixed-up) timestamp string.  A non-blacklisted
field named `Date` instead overwrites the timestamp with its decoded
integer. -/
theorem C10_record_invariant (bl : List Str) (strpf : Str → Option Str)
    (fixupDate : Bool) (inline : Str) (rec : Record)
    (hp : parse_line bl strpf fixupDate inline = .ok rec) :
    (parse_keys rec).Nodup ∧
    (lookupRec rec (chars "Date")).isSome = true ∧
    (∀ q ∈ rec, q.1 ≠ chars "Date" → ∃ m : Nat, q.2 = Value.int (m : Int)) ∧
    (hasDateField bl (pySplit '|' inline).tail = false →
      ∃ ds, (if fixupDate then fixDate strpf ((pySplit '|' inline).headD [])
          else .ok ((pySplit '|' inline).headD []) :
            Except ParseErr Str) = .ok ds ∧
        lookupRec rec (chars "Date") = some (.str ds)) := by
  unfold parse_line at hp
  cases hd : (if fixupDate then fixDate strpf ((pySplit '|' inline).headD [])
      else .ok ((pySplit '|' inline).headD []) : Except ParseErr Str) with
  | error e => simp only [hd] at hp; exact Except.noConfusion hp
  | ok ds =>
    simp only [hd] at hp
    refine ⟨parseElems_nodup bl _ _ rec hp (by simp [parse_keys]),
            parseElems_date_isSome bl _ _ rec hp (by simp [lookupRec]),
            ?_, ?_⟩
    · intro q hq hqd
      rcases parseElems_entries bl _ _ rec hp q hq with h1 | h1
      · rw [List.mem_singleton] at h1
        exact absurd (by rw [h1] : q.1 = chars "Date") hqd
      · exact h1
    · intro hdf
      refine ⟨ds, rfl, ?_⟩
      rw [parseElems_date_preserved bl _ _ rec hdf hp]
      simp [lookupRec]

/-- The spec's round-trip line, used as the witness input for C10. -/
def lineW : Str := chars "2013-04-01T00:00:00|foo:10|bar:1K"

/-- The record produced from `lineW`. -/
def recW : Record :=
  [(chars "Date", Value.str (chars "2013-04-01T00:00:00")),
   (chars "foo", Value.int 10), (chars "bar", Value.int 1024)]

/-- Witness for C10, instantiated at the spec's round-trip line. -/
theorem C10_record_invariant_witness :
    (parse_keys recW).Nodup ∧
    (lookupRec recW (chars "Date")).isSome = true ∧
    (∀ q ∈ recW, q.1 ≠ chars "Date" → ∃ m : Nat, q.2 = Value.int (m : Int)) ∧
    (hasDateField [] (pySplit '|' lineW).tail = false →
      ∃ ds, (if false then fixDate (fun _ => none) ((pySplit '|' lineW).headD [])
          else .ok ((pySplit '|' lineW).headD []) :
            Except ParseErr Str) = .ok ds ∧
        lookupRec recW (chars "Date") = some (.str ds)) :=
  C10_record_invariant [] (fun _ => none) false lineW recW (by decide)


/-! ## Lemmas about the StabilityFilter -/

theorem varFrom_true_iff (key : Str) (v0 : Value) (l : List Record) :
    varFrom key v0 l = true ↔
      ∃ r ∈ l, ∃ v, lookupRec r key = some v ∧ v ≠ v0 := by
  induction l with
  | nil =>
    constructor
    · intro h; exact absurd h (by simp [varFrom])
    · rintro ⟨r, h, _⟩; exact absurd h (List.not_mem_nil r)
  | cons r rs ih =>
    cases hl : lookupRec r key with
    | none =>
      simp only [varFrom, hl, ih]
      constructor
      · rintro ⟨r1, h1, h2⟩
        exact ⟨r1, List.mem_cons_of_mem _ h1, h2⟩
      · rintro ⟨r1, h1, v, hv, hne⟩
        rcases List.mem_cons.mp h1 with h2 | h2
        · rw [h2] at hv; rw [hl] at hv; exact Option.noConfusion hv
        · exact ⟨r1, h2, v, hv, hne⟩
    | some v =>
      simp only [varFrom, hl, Bool.or_eq_true, decide_eq_true_eq, ih]
      constructor
      · rintro (hne | ⟨r1, h1, h2⟩)
        · exact ⟨r, List.mem_cons_self _ _, v, hl, hne⟩
        · exact ⟨r1, List.mem_cons_of_mem _ h1, h2⟩
      · rintro ⟨r1, h1, v1, hv1, hne⟩
        rcases List.mem_cons.mp h1 with h2 | h2
        · subst h2
          rw [hl] at hv1
          cases hv1
          exact Or.inl hne
        · exact Or.inr ⟨r1, h2, v1, hv1, hne⟩

theorem varValue_eq_none_iff (key : Str) (records : List Record) :
    varValue key records = none ↔ ∀ r ∈ records, lookupRec r key = none := by
  induction records with
  | nil => simp [varValue]
  | cons r rs ih =>
    cases hl : lookupRec r key with
    | none =>
      simp only [varValue, hl, ih]
      constructor
      · intro h r1 h1
        rcases List.mem_cons.mp h1 with h2 | h2
        · rw [h2]; exact hl
        · exact h r1 h2
      · intro h r1 h1
        exact h r1 (List.mem_cons_of_mem _ h1)
    | some v =>
      simp only [varValue, hl]
      constructor
      · intro h; exact Option.noConfusion h
      · intro h
        have := h r (List.mem_cons_self _ _)
        rw [hl] at this
        exact Option.noConfusion this

theorem varValue_true_iff (key : Str) (records : List Record) :
    varValue key records = some true ↔
      ∃ r1 ∈ records, ∃ v1, lookupRec r1 key = some v1 ∧
        ∃ r2 ∈ records, ∃ v2, lookupRec r2 key = some v2 ∧ v1 ≠ v2 := by
  induction records with
  | nil =>
    constructor
    · intro h; exact absurd h (by simp [varValue])
    · rintro ⟨r, h, _⟩; exact absurd h (List.not_mem_nil r)
  | cons r rs ih =>
    cases hl : lookupRec r key with
    | none =>
      simp only [varValue, hl, ih]
      constructor
      · rintro ⟨r1, h1, v1, hv1, r2, h2, v2, hv2, hne⟩
        exact ⟨r1, List.mem_cons_of_mem _ h1, v1, hv1,
               r2, List.mem_cons_of_mem _ h2, v2, hv2, hne⟩
      · rintro ⟨r1, h1, v1, hv1, r2, h2, v2, hv2, hne⟩
        rcases List.mem_cons.mp h1 with h1a | h1a
        · rw [h1a, hl] at hv1; exact Option.noConfusion hv1
        rcases List.mem_cons.mp h2 with h2a | h2a
        · rw [h2a, hl] at hv2; exact Option.noConfusion hv2
        exact ⟨r1, h1a, v1, hv1, r2, h2a, v2, hv2, hne⟩
    | some v0 =>
      simp only [varValue, hl, Option.some_inj]
      rw [show (varFrom key v0 (r :: rs) = true) =
        (varFrom key v0 rs = true) by simp [varFrom, hl]]
      rw [varFrom_true_iff]
      constructor
      · rintro ⟨r1, h1, v1, hv1, hne⟩
        exact ⟨r, List.mem_cons_self _ _, v0, hl,
               r1, List.mem_cons_of_mem _ h1, v1, hv1, fun h => hne h.symm⟩
      · rintro ⟨r1, h1, v1, hv1, r2, h2, v2, hv2, hne⟩
        by_cases hv10 : v1 = v0
        · subst hv10
          rcases List.mem_cons.mp h2 with h2a | h2a
          · rw [h2a, hl] at hv2
            cases hv2
            exact absurd rfl hne
          · exact ⟨r2, h2a, v2, hv2, fun h => hne h.symm⟩
        · rcases List.mem_cons.mp h1 with h1a | h1a
          · rw [h1a, hl] at hv1
            cases hv1
            exact absurd rfl hv10
          · exact ⟨r1, h1a, v1, hv1, hv10⟩


theorem mem_stabilityFilter (records : List Record) :
    ∀ keys nk, stabilityFilter records keys = some nk →
      ∀ k, k ∈ nk ↔ (k ∈ keys ∧ k ≠ chars "Date" ∧
        varValue k records = some true) := by
  intro keys
  induction keys with
  | nil =>
    intro nk h k
    simp only [stabilityFilter, Option.some_inj] at h
    subst h
    simp
  | cons key ks ih =>
    intro nk h k
    simp only [stabilityFilter] at h
    by_cases hd : key = chars "Date"
    · rw [if_pos hd] at h
      rw [ih nk h k]
      constructor
      · rintro ⟨h1, h2, h3⟩
        exact ⟨List.mem_cons_of_mem _ h1, h2, h3⟩
      · rintro ⟨h1, h2, h3⟩
        rcases List.mem_cons.mp h1 with h4 | h4
        · exact absurd (h4.trans hd) h2
        · exact ⟨h4, h2, h3⟩
    · rw [if_neg hd] at h
      cases hv : varValue key records with
      | none => rw [hv] at h; exact Option.noConfusion h
      | some b =>
        rw [hv] at h
        cases b with
        | true =>
          cases hrec : stabilityFilter records ks with
          | none => rw [hrec] at h; exact Option.noConfusion h
          | some nk' =>
            rw [hrec] at h
            rw [Option.map_some'] at h
            rw [Option.some_inj] at h
            subst h
            rw [List.mem_cons, ih nk' hrec k]
            constructor
            · rintro (h1 | ⟨h1, h2, h3⟩)
              · subst h1
                exact ⟨List.mem_cons_self _ _, hd, hv⟩
              · exact ⟨List.mem_cons_of_mem _ h1, h2, h3⟩
            · rintro ⟨h1, h2, h3⟩
              rcases List.mem_cons.mp h1 with h4 | h4
              · exact Or.inl h4
              · exact Or.inr ⟨h4, h2, h3⟩
        | false =>
          rw [ih nk h k]
          constructor
          · rintro ⟨h1, h2, h3⟩
            exact ⟨List.mem_cons_of_mem _ h1, h2, h3⟩
          · rintro ⟨h1, h2, h3⟩
            rcases List.mem_cons.mp h1 with h4 | h4
            · subst h4
              rw [h3] at hv
              exact absurd (Option.some_inj.mp hv) (by simp)
            · exact ⟨h4, h2, h3⟩

theorem stabilityFilter_none_of_absent (records : List Record) (key : Str)
    (hd : key ≠ chars "Date")
    (habs : ∀ r ∈ records, lookupRec r key = none) :
    ∀ keys, key ∈ keys → stabilityFilter records keys = none := by
  intro keys
  induction keys with
  | nil => intro h; exact absurd h (List.not_mem_nil key)
  | cons key' ks ih =>
    intro hmem
    simp only [stabilityFilter]
    by_cases hd' : key' = chars "Date"
    · rw [if_pos hd']
      rcases List.mem_cons.mp hmem with h1 | h1
      · exact absurd (h1.trans hd') hd
      · exact ih h1
    · rw [if_neg hd']
      by_cases hkk : key' = key
      · subst hkk
        rw [(varValue_eq_none_iff key' records).mpr habs]
      · cases hv : varValue key' records with
        | none => rfl
        | some b =>
          have h1 : key ∈ ks := by
            rcases List.mem_cons.mp hmem with h2 | h2
            · exact absurd h2.symm hkk
            · exact h2
          cases b with
          | true => rw [ih h1]; rfl
          | false => exact ih h1

theorem varFrom_filter (key : Str) (v0 : Value) (l : List Record) :
    varFrom key v0 (l.filter (fun r => containsKey r key)) =
      varFrom key v0 l := by
  induction l with
  | nil => rfl
  | cons r rs ih =>
    cases hl : lookupRec r key with
    | none =>
      rw [List.filter_cons_of_neg (by simp [containsKey, hl])]
      simp only [varFrom, hl, ih]
    | some v =>
      rw [List.filter_cons_of_pos (by simp [containsKey, hl])]
      simp only [varFrom, hl, ih]

theorem varValue_filter (key : Str) (records : List Record) :
    varValue key (records.filter (fun r => containsKey r key)) =
      varValue key records := by
  induction records with
  | nil => rfl
  | cons r rs ih =>
    cases hl : lookupRec r key with
    | none =>
      rw [List.filter_cons_of_neg (by simp [containsKey, hl])]
      simp only [varValue, hl, ih]
    | some v =>
      rw [List.filter_cons_of_pos (by simp [containsKey, hl])]
      simp only [varValue, hl]
      have h1 : ∀ X, varFrom key v (r :: X) = varFrom key v X := by
        intro X
        simp [varFrom, hl]
      rw [h1, h1, varFrom_filter]


/-! ## Claims C5 and C6 -/

/-- The spec's StabilityFilter example records
`[{a:1,b:5},{a:1,b:6},{a:1,b:5}]`. -/
def exRecords3 : List Record :=
  [[(chars "a", Value.int 1), (chars "b", Value.int 5)],
   [(chars "a", Value.int 1), (chars "b", Value.int 6)],
   [(chars "a", Value.int 1), (chars "b", Value.int 5)]]

/-- **C5** (confirmed): when the purge succeeds, a non-`Date` key of the
key set occurring in at least one record is retained iff two records both
containing it hold different values; and on the spec's example records,
`a` is dropped and `b` is retained. -/
theorem C5_retained_iff_varies :
    (∀ (records : List Record) (keys nk : List Str) (key : Str),
      stabilityFilter records keys = some nk →
      key ∈ keys → key ≠ chars "Date" →
      (∃ r ∈ records, containsKey r key = true) →
      (key ∈ nk ↔ ∃ r1 ∈ records, ∃ v1, lookupRec r1 key = some v1 ∧
        ∃ r2 ∈ records, ∃ v2, lookupRec r2 key = some v2 ∧ v1 ≠ v2)) ∧
    stabilityFilter exRecords3 [chars "a", chars "b"] = some [chars "b"] := by
  constructor
  · intro records keys nk key hf hk hd _
    rw [mem_stabilityFilter records keys nk hf key]
    rw [← varValue_true_iff]
    constructor
    · rintro ⟨_, _, h⟩; exact h
    · intro h; exact ⟨hk, hd, h⟩
  · decide

/-- Witness for C5, instantiated at the example records and key `b`. -/
theorem C5_retained_iff_varies_witness :
    chars "b" ∈ [chars "b"] ↔
      ∃ r1 ∈ exRecords3, ∃ v1, lookupRec r1 (chars "b") = some v1 ∧
        ∃ r2 ∈ exRecords3, ∃ v2, lookupRec r2 (chars "b") = some v2 ∧
          v1 ≠ v2 :=
  C5_retained_iff_varies.1 exRecords3 [chars "a", chars "b"] [chars "b"]
    (chars "b") (by decide) (by decide) (by decide) (by decide)

/-- **C6** (counterexample): a key (here `a`) absent from every record is
*not* treated as unchanging and dropped — the first scan loop runs past
the end of `records` and the purge dies with `IndexError` (modelled by
`none`); the claim would require the result `some []`. -/
theorem C6_counterexample :
    stabilityFilter [[(chars "b", Value.int 1)]] [chars "a"] = none ∧
    stabilityFilter [[(chars "b", Value.int 1)]] [chars "a"] ≠ some [] := by
  decide

/-- **C6** (amended): a non-`Date` key of the key set absent from every
record makes the stability scan fail (the unhandled `IndexError`) instead
of being dropped; a key present in exactly one record is dropped; and a
record lacking the key is skipped — the scan's verdict only depends on
the records containing the key. -/
theorem C6_stability_scan_recovery :
    (∀ (records : List Record) (keys : List Str) (key : Str),
      key ∈ keys → key ≠ chars "Date" →
      (∀ r ∈ records, lookupRec r key = none) →
      stabilityFilter records keys = none) ∧
    (∀ (records : List Record) (keys nk : List Str) (key : Str),
      stabilityFilter records keys = some nk →
      (records.filter (fun r => containsKey r key)).length = 1 →
      key ∉ nk) ∧
    (∀ (key : Str) (records : List Record),
      varValue key (records.filter (fun r => containsKey r key)) =
        varValue key records) := by
  refine ⟨?_, ?_, varValue_filter⟩
  · intro records keys key hk hd habs
    exact stabilityFilter_none_of_absent records key hd habs keys hk
  · intro records keys nk key hf hlen hmem
    rcases List.length_eq_one.mp hlen with ⟨r0, hr0⟩
    have hvar := ((mem_stabilityFilter records keys nk hf key).mp hmem).2.2
    rcases (varValue_true_iff key records).mp hvar with
      ⟨r1, h1, v1, hv1, r2, h2, v2, hv2, hne⟩
    have hm1 : r1 ∈ records.filter (fun r => containsKey r key) :=
      List.mem_filter.mpr ⟨h1, by simp [containsKey, hv1]⟩
    have hm2 : r2 ∈ records.filter (fun r => containsKey r key) :=
      List.mem_filter.mpr ⟨h2, by simp [containsKey, hv2]⟩
    rw [hr0, List.mem_singleton] at hm1 hm2
    rw [hm1] at hv1
    rw [hm2] at hv2
    rw [hv1] at hv2
    exact hne (Option.some_inj.mp hv2)

/-- Witness for C6: with records `[{c:1}, {d:2}]` each key occurs in
exactly one record, so both are dropped and the purge returns `some []`;
in particular `c` is not retained. -/
theorem C6_stability_scan_recovery_witness :
    chars "c" ∉ ([] : List Str) :=
  C6_stability_scan_recovery.2.1
    [[(chars "c", Value.int 1)], [(chars "d", Value.int 2)]]
    [chars "c", chars "d"] [] (chars "c") (by decide) (by decide)


/-! ## Lemmas about the read loop -/

theorem runLoop_records (bl : List Str) (strpf : Str → Option Str)
    (fu : Bool) :
    ∀ (ls : List Str) (st0 st : LoopState),
      runLoop (processLine bl strpf fu) st0 ls = .ok st →
      st.records = st0.records ++ ls.filterMap (fun l =>
        if hasInfix (chars "turned over") l then none
        else (parse_line bl strpf fu l).toOption) := by
  intro ls
  induction ls with
  | nil =>
    intro st0 st h
    simp only [runLoop] at h
    cases h
    simp
  | cons line rest ih =>
    intro st0 st h
    simp only [runLoop] at h
    cases hp : parse_line bl strpf fu line with
    | error e =>
      simp only [processLine, hp] at h
      exact Except.noConfusion h
    | ok rec =>
      by_cases hto : hasInfix (chars "turned over") line = true
      · simp only [processLine, hp, hto, if_true] at h
        rw [ih st0 st h, List.filterMap_cons]
        simp [hto]
      · simp only [processLine, hp, hto, if_false] at h
        rw [ih _ st h, List.filterMap_cons]
        simp only [hto, Bool.false_eq_true, if_false, hp, Except.toOption,
          List.append_assoc, List.singleton_append]

theorem runLoop_keys_from_record (bl : List Str) (strpf : Str → Option Str)
    (fu : Bool) :
    ∀ (ls : List Str) (st0 st : LoopState),
      runLoop (processLine bl strpf fu) st0 ls = .ok st →
      st.keys = st0.keys ∨ ∃ r ∈ st.records, st.keys = parse_keys r := by
  intro ls
  induction ls with
  | nil =>
    intro st0 st h
    simp only [runLoop] at h
    cases h
    exact Or.inl rfl
  | cons line rest ih =>
    intro st0 st h
    simp only [runLoop] at h
    cases hp : parse_line bl strpf fu line with
    | error e =>
      simp only [processLine, hp] at h
      exact Except.noConfusion h
    | ok rec =>
      by_cases hto : hasInfix (chars "turned over") line = true
      · simp only [processLine, hp, hto, if_true] at h
        exact ih st0 st h
      · simp only [processLine, hp, hto, if_false] at h
        have hrecs := runLoop_records bl strpf fu rest _ st h
        rcases ih _ st h with h1 | h1
        · rw [h1]
          simp only [stepKeys]
          by_cases hempty :
              ((parse_keys rec).filter (fun k => !st0.keys.contains k)).isEmpty = true
          · rw [if_pos hempty]
            exact Or.inl rfl
          · rw [if_neg hempty]
            refine Or.inr ⟨rec, ?_, rfl⟩
            rw [hrecs]
            simp
        · exact Or.inr h1


theorem runLoop_filter_rotation (bl : List Str) (strpf : Str → Option Str)
    (fu : Bool) :
    ∀ (rest : List Str) (st0 : LoopState),
      (∀ l ∈ rest, hasInfix (chars "turned over") l = true →
        (parse_line bl strpf fu l).toOption.isSome = true) →
      runLoop (processLine bl strpf fu) st0 rest =
        runLoop (processLineNoCheck bl strpf fu) st0
          (rest.filter (fun l => !hasInfix (chars "turned over") l)) := by
  intro rest
  induction rest with
  | nil => intro st0 _; rfl
  | cons l rest' ih =>
    intro st0 hok
    have hok' : ∀ l2 ∈ rest', hasInfix (chars "turned over") l2 = true →
        (parse_line bl strpf fu l2).toOption.isSome = true :=
      fun l2 h2 => hok l2 (List.mem_cons_of_mem _ h2)
    by_cases hto : hasInfix (chars "turned over") l = true
    · rw [List.filter_cons_of_neg (by rw [hto]; simp)]
      have hp := hok l (List.mem_cons_self _ _) hto
      cases hpl : parse_line bl strpf fu l with
      | error e => rw [hpl] at hp; exact absurd hp (by simp [Except.toOption])
      | ok rec =>
        simp only [runLoop, processLine, hpl, hto, if_true]
        exact ih st0 hok'
    · rw [List.filter_cons_of_pos (by rw [Bool.not_eq_true] at hto; rw [hto]; rfl)]
      cases hpl : parse_line bl strpf fu l with
      | error e =>
        simp only [runLoop, processLine, processLineNoCheck, hpl]
      | ok rec =>
        simp only [runLoop, processLine, processLineNoCheck, hpl, hto,
          Bool.false_eq_true, if_false]
        exact ih _ hok'


/-! ## Claim C1 -/

/-- **C1** (counterexample): the key tracking is *not* a monotone union.
After the first line the key set is `[Date, a, b]`; the second record
`{Date, c}` introduces the new key `c`, whereupon `keys` is *replaced* by
`parse_keys(record)`: `a` and `b` are dropped and the key-set size
decreases from 3 to 2 (the union would have size 4). -/
theorem C1_counterexample :
    runMain [] (fun _ => none) false [chars "t|a:1|b:2\n"] =
      .ok ⟨[chars "Date", chars "a", chars "b"], []⟩ ∧
    runMain [] (fun _ => none) false [chars "t|a:1|b:2\n", chars "t|c:3\n"] =
      .ok ⟨[chars "Date", chars "c"],
        [[(chars "Date", Value.str (chars "t")), (chars "c", Value.int 3)]]⟩ ∧
    chars "a" ∉ [chars "Date", chars "c"] ∧
    ([chars "Date", chars "c"] : List Str).length <
      ([chars "Date", chars "a", chars "b"] : List Str).length := by decide

/-- **C1** (amended): after each record the key set is unchanged when the
record introduces no new key, and otherwise is *replaced wholesale* by the
record's own key list (earlier keys absent from the record are dropped, so
the size may decrease); consequently at every point of a successful run
the key set is exactly the key list of one parsed record (the seeding
first record or some collected record). -/
theorem C1_keyset_replacement :
    (∀ (keys : List Str) (record : Record),
      (((parse_keys record).filter
          (fun k => !keys.contains k)).isEmpty = true →
        stepKeys keys record = keys) ∧
      (((parse_keys record).filter
          (fun k => !keys.contains k)).isEmpty = false →
        stepKeys keys record = parse_keys record)) ∧
    (∀ (bl : List Str) (strpf : Str → Option Str) (fu : Bool)
        (first : Str) (rest : List Str) (st : LoopState),
      runMainCore bl strpf fu first rest = .ok st →
      (∃ fr, parse_line bl strpf fu first = .ok fr ∧
        st.keys = parse_keys fr) ∨
      (∃ r ∈ st.records, st.keys = parse_keys r)) := by
  constructor
  · intro keys record
    constructor
    · intro h
      simp only [stepKeys, h, if_true]
    · intro h
      simp only [stepKeys, h, Bool.false_eq_true, if_false]
  · intro bl strpf fu first rest st h
    unfold runMainCore at h
    cases hp : parse_line bl strpf fu first with
    | error e =>
      rw [hp] at h
      exact Except.noConfusion h
    | ok fr =>
      rw [hp] at h
      rcases runLoop_keys_from_record bl strpf fu rest _ st h with h1 | h1
      · exact Or.inl ⟨fr, rfl, h1⟩
      · exact Or.inr h1

/-- Witness for C1, instantiated at a two-line run whose second record
replaces the key set: the final keys equal the second record's keys. -/
theorem C1_keyset_replacement_witness :
    (∃ fr, parse_line [] (fun _ => none) false (chars "t|a:1|b:2\n") =
        .ok fr ∧
      (LoopState.mk [chars "Date", chars "c"]
        [[(chars "Date", Value.str (chars "t")),
          (chars "c", Value.int 3)]]).keys = parse_keys fr) ∨
    (∃ r ∈ (LoopState.mk [chars "Date", chars "c"]
        [[(chars "Date", Value.str (chars "t")),
          (chars "c", Value.int 3)]]).records,
      (LoopState.mk [chars "Date", chars "c"]
        [[(chars "Date", Value.str (chars "t")),
          (chars "c", Value.int 3)]]).keys = parse_keys r) :=
  C1_keyset_replacement.2 [] (fun _ => none) false (chars "t|a:1|b:2\n")
    [chars "t|c:3\n"]
    ⟨[chars "Date", chars "c"],
     [[(chars "Date", Value.str (chars "t")), (chars "c", Value.int 3)]]⟩
    (by decide)

/-! ## Claim C2 -/

/-- **C2** (counterexample): two parseable input lines yield a combined
CSV with only *one* data row — the first line seeds the key set but its
record is never appended (`records.append(first_record)` is commented
out), so not every parsed line contributes a row. -/
theorem C2_counterexample :
    combinedCSV [] (fun _ => none) false true
      [chars "t1|a:1\n", chars "t2|a:2\n"] =
      some ([chars "Date"], [[Value.str (chars "t2")]]) ∧
    ([[Value.str (chars "t2")]] : List (List Value)).length ≠
      ([chars "t1|a:1\n", chars "t2|a:2\n"] : List Str).length := by decide

/-- **C2** (amended): in a successful run the collected records are
exactly the parses of the post-first-line input lines, in input order,
with rotation lines excluded and nothing else dropped, duplicated or
sorted; the combined CSV emits one row per *collected* record (the first
line contributes none), each row listing, per header column, the record's
value with missing fields written as `0`. -/
theorem C2_one_row_per_collected_record :
    (∀ (bl : List Str) (strpf : Str → Option Str) (fu : Bool)
        (lines : List Str) (st : LoopState),
      runMain bl strpf fu lines = .ok st →
      st.records = (effRest lines).filterMap (fun l =>
        if hasInfix (chars "turned over") l then none
        else (parse_line bl strpf fu l).toOption)) ∧
    (∀ (bl : List Str) (strpf : Str → Option Str) (fu purge : Bool)
        (lines : List Str) (st : LoopState) (hdr : List Str)
        (rows : List (List Value)),
      runMain bl strpf fu lines = .ok st →
      combinedCSV bl strpf fu purge lines = some (hdr, rows) →
      rows = st.records.map (csvRow hdr) ∧
      rows.length = st.records.length) ∧
    (∀ (hdr : List Str) (r : Record),
      (csvRow hdr r).length = hdr.length ∧
      ∀ i, ∀ h : i < hdr.length, lookupRec r (hdr.get ⟨i, h⟩) = none →
        (csvRow hdr r).get ⟨i, by simpa [csvRow] using h⟩ = Value.int 0) := by
  refine ⟨?_, ?_, ?_⟩
  · intro bl strpf fu lines st h
    unfold runMain at h
    unfold effRest
    by_cases hto : hasInfix (chars "turned over") (lines.headD []) = true
    · rw [if_pos hto] at h ⊢
      unfold runMainCore at h
      cases hp : parse_line bl strpf fu (lines.tail.headD []) with
      | error e => rw [hp] at h; exact Except.noConfusion h
      | ok fr =>
        rw [hp] at h
        simpa using runLoop_records bl strpf fu _ _ st h
    · rw [if_neg hto] at h ⊢
      unfold runMainCore at h
      cases hp : parse_line bl strpf fu (lines.headD []) with
      | error e => rw [hp] at h; exact Except.noConfusion h
      | ok fr =>
        rw [hp] at h
        simpa using runLoop_records bl strpf fu _ _ st h
  · intro bl strpf fu purge lines st hdr rows h1 h2
    unfold combinedCSV at h2
    simp only [h1] at h2
    cases hks : (if purge then stabilityFilter st.records st.keys
        else some st.keys : Option (List Str)) with
    | none =>
      simp only [hks] at h2
      exact Option.noConfusion h2
    | some ks =>
      simp only [hks] at h2
      simp only [Option.some_inj, Prod.mk.injEq] at h2
      rcases h2 with ⟨hhdr, hrows⟩
      subst hhdr
      constructor
      · exact hrows.symm
      · rw [← hrows]
        simp [List.length_map]
  · intro hdr r
    refine ⟨by simp [csvRow], ?_⟩
    intro i h hmiss
    simp only [csvRow, List.get_eq_getElem, List.getElem_map]
    rw [show hdr[i] = hdr.get ⟨i, h⟩ by simp, hmiss]
    rfl

/-- Witness for C2, instantiated at a two-line run: the collected records
are exactly the parse of the second line. -/
theorem C2_one_row_per_collected_record_witness :
    (LoopState.mk [chars "Date", chars "a"]
      [[(chars "Date", Value.str (chars "t2")),
        (chars "a", Value.int 2)]]).records =
      (effRest [chars "t1|a:1\n", chars "t2|a:2\n"]).filterMap (fun l =>
        if hasInfix (chars "turned over") l then none
        else (parse_line [] (fun _ => none) false l).toOption) :=
  C2_one_row_per_collected_record.1 [] (fun _ => none) false
    [chars "t1|a:1\n", chars "t2|a:2\n"]
    ⟨[chars "Date", chars "a"],
     [[(chars "Date", Value.str (chars "t2")), (chars "a", Value.int 2)]]⟩
    (by decide)

/-! ## Claim C3 -/

/-- **C3** (counterexample): a mid-stream rotation line is handed to the
parser *before* the rotation check.  Here the second line contains
`"turned over"` and an undecodable field, so the run aborts with the
parse error, whereas the spec's skip-before-parse pipeline completes
successfully. -/
theorem C3_counterexample :
    runMain [] (fun _ => none) false
      [chars "t|a:1\n", chars "x turned over|a:qq\n"] =
      .error (.elemErr (chars "a:qq\n") (.badNum [])) ∧
    runMainSkipBeforeParse [] (fun _ => none) false
      [chars "t|a:1\n", chars "x turned over|a:qq\n"] =
      .ok ⟨[chars "Date", chars "a"], []⟩ := by decide

/-- **C3** (amended): only the *first* line's rotation check precedes
parsing (such a line is replaced by the next line unparsed); every later
rotation line is parsed first and only then discarded — its parse failure
aborts the run, while on success it leaves the loop state untouched.
When every mid-stream rotation line happens to parse, the run coincides
with the spec's skip-before-parse pipeline. -/
theorem C3_rotation_check_after_parse :
    (∀ (bl : List Str) (strpf : Str → Option Str) (fu : Bool)
        (st : LoopState) (line : Str),
      hasInfix (chars "turned over") line = true →
      processLine bl strpf fu st line =
        (parse_line bl strpf fu line).map (fun _ => st)) ∧
    (∀ (bl : List Str) (strpf : Str → Option Str) (fu : Bool)
        (l1 : Str) (rest : List Str),
      hasInfix (chars "turned over") l1 = true →
      runMain bl strpf fu (l1 :: rest) =
        runMainCore bl strpf fu (rest.headD []) rest.tail) ∧
    (∀ (bl : List Str) (strpf : Str → Option Str) (fu : Bool)
        (lines : List Str),
      hasInfix (chars "turned over") (lines.headD []) = false →
      (∀ l ∈ lines, hasInfix (chars "turned over") l = true →
        (parse_line bl strpf fu l).toOption.isSome = true) →
      runMain bl strpf fu lines = runMainSkipBeforeParse bl strpf fu lines) := by
  refine ⟨?_, ?_, ?_⟩
  · intro bl strpf fu st line hto
    cases hp : parse_line bl strpf fu line with
    | error e => simp [processLine, hp, Except.map]
    | ok rec => simp [processLine, hp, hto, Except.map]
  · intro bl strpf fu l1 rest hto
    simp only [runMain, List.headD_cons, hto, if_true, List.tail_cons]
  · intro bl strpf fu lines hto hok
    cases lines with
    | nil =>
      simp [runMain, runMainSkipBeforeParse, runMainCore, runLoop]
    | cons l1 rest =>
      rw [List.headD_cons] at hto
      unfold runMain runMainSkipBeforeParse
      rw [List.headD_cons, hto]
      simp only [Bool.false_eq_true, if_false]
      rw [List.filter_cons_of_pos (by rw [hto]; rfl)]
      simp only [List.headD_cons, List.tail_cons]
      unfold runMainCore
      cases hp : parse_line bl strpf fu l1 with
      | error e => rfl
      | ok fr =>
        exact runLoop_filter_rotation bl strpf fu rest _
          (fun l h2 => hok l (List.mem_cons_of_mem _ h2))

/-- Witness for C3's coincidence clause: a three-line stream whose middle
line is a parseable rotation line gives the same result through both
pipelines. -/
theorem C3_rotation_check_after_parse_witness :
    runMain [] (fun _ => none) false
      [chars "t|a:1\n", chars "x turned over\n", chars "t|a:2\n"] =
      runMainSkipBeforeParse [] (fun _ => none) false
        [chars "t|a:1\n", chars "x turned over\n", chars "t|a:2\n"] :=
  C3_rotation_check_after_parse.2.2 [] (fun _ => none) false
    [chars "t|a:1\n", chars "x turned over\n", chars "t|a:2\n"]
    (by decide) (by decide)

end EagleEye
